import Mathlib

/-!
Verification of the Gideon ranking and consensus engine.

This file gives a shallow embedding, in Lean 4, of the pure algorithmic
core of the repository (gideon_core.py, with the parallel implementations
in ensemble.py): URL normalization, fuzzy citation matching, weighted
verdict aggregation, consensus vote tallying, context batching, the
per-batch retry loop of the stage-one judge, and the generic retry
decorator.  Inference calls, JSON parsing and sleeping are modelled as
explicit inputs (attempt-indexed outcome functions); Python floats are
modelled as rationals; Python dicts are modelled as update functions or
association folds with overwrite semantics.
-/

namespace Gideon

/-! ## String utilities

Embeds `clean` from `fuzzy_match_article` (gideon_core.py line 93):
`re.sub(r"\W+", " ", s or "").lower().strip()` followed by `.split()`.
A token is a maximal run of word characters of the lowered string.
The ASCII reading of the regex class is used.
-/

def isWordChar (c : Char) : Bool :=
  c.isAlphanum || c = '_'

/-- Python `s.lower()` on the character list (ASCII reading). -/
def lowerChars (l : List Char) : List Char :=
  l.map Char.toLower

/-- Does the pattern occur as a prefix of the list. -/
def startsWithL : List Char → List Char → Bool
  | [], _ => true
  | _ :: _, [] => false
  | p :: ps, x :: xs => p = x && startsWithL ps xs

/-- Python substring containment `pat in l`. -/
def containsL (pat : List Char) : List Char → Bool
  | [] => startsWithL pat []
  | l@(_ :: xs) => startsWithL pat l || containsL pat xs

/-- Python substring containment `a in b` on strings. -/
def substrOf (a b : String) : Bool :=
  containsL a.toList b.toList

/-- Accumulating tokenizer: maximal runs of non-separator characters, in
order, with empty fragments dropped, as `str.split()` does after `clean`
replaced every non-word run by a space.  The accumulator holds the
current token reversed.  Structural recursion on the input list. -/
def tokensAux (isSep : Char → Bool) : List Char → List Char → List String
  | [], acc => if acc = [] then [] else [⟨acc.reverse⟩]
  | c :: cs, acc =>
      if isSep c then
        if acc = [] then tokensAux isSep cs []
        else (⟨acc.reverse⟩ : String) :: tokensAux isSep cs []
      else tokensAux isSep cs (c :: acc)

/-- Token list of a title after the `clean` normalization of
`fuzzy_match_article` (gideon_core.py line 93):
`re.sub(r"\W+", " ", s or "").lower().strip()` then `.split()`. -/
def cleanTokens (s : String) : List String :=
  tokensAux (fun c => !(isWordChar c)) (lowerChars s.toList) []

/-- Token set used for the Jaccard similarity (`set(clean(s).split())`). -/
def tokenSet (s : String) : Finset String :=
  (cleanTokens s).toFinset

/-- Python `s.strip("/")` on the character list: remove leading and
trailing slash characters. -/
def stripSlashesL (l : List Char) : List Char :=
  ((l.dropWhile (fun c => c = '/')).reverse.dropWhile (fun c => c = '/')).reverse

/-- The part of the list after the last non-overlapping occurrence of the
pattern, scanning left to right: `s.split(sep)[-1]`.  The whole list
when the pattern does not occur.  Fuel-based structural recursion; the
fuel is always at least the list length and the pattern is nonempty, so
the fuel never runs out on the modelled inputs. -/
def afterLastAux (sep : List Char) : ℕ → List Char → List Char
  | 0, l => l
  | fuel + 1, l =>
      match l with
      | [] => []
      | _ :: xs =>
          if startsWithL sep l then afterLastAux sep fuel (l.drop sep.length)
          else if containsL sep xs then afterLastAux sep fuel xs
          else l

def afterLast (sep l : List Char) : List Char :=
  afterLastAux sep l.length l

/-- Python `s.replace(pat, "")`: delete every non-overlapping occurrence
of the pattern, scanning left to right.  Fuel as in `afterLastAux`. -/
def removeAllAux (pat : List Char) : ℕ → List Char → List Char
  | 0, l => l
  | fuel + 1, l =>
      match l with
      | [] => []
      | x :: xs =>
          if startsWithL pat l then removeAllAux pat fuel (l.drop pat.length)
          else x :: removeAllAux pat fuel xs

def removeAll (pat l : List Char) : List Char :=
  removeAllAux pat l.length l

/-- Embeds `normalize_url` (gideon_core.py lines 84-86, identical helper
`norm` in ensemble.py line 336):
`u.lower().split("://")[-1].replace("www.", "").strip("/")`,
with the empty string passed through by the falsiness guard.  Note that
`replace` deletes every occurrence of `www.`, not only a leading one,
exactly as the source does. -/
def normalize_url (u : String) : String :=
  if u = "" then ""
  else ⟨stripSlashesL (removeAll "www.".toList
          (afterLast "://".toList (lowerChars u.toList)))⟩

/-! ## Domain entities -/

/-- Embeds the `Article` data object (gideon_core.py lines 121-131).
The `published`, `metadata` and `scraped_at` fields are untyped in the
source and unused by the verified operations, so they are omitted. -/
structure Article where
  link : String
  title : String
  summary : String
  source : String
  feed_label : String
deriving DecidableEq, Repr

/-- One `{title, link}` citation returned by a consensus voter; a missing
field is modelled as the empty string, matching how `clean` and the
link guards treat `None`. -/
structure Citation where
  title : String
  link : String
deriving DecidableEq, Repr

/-! ## Fuzzy matching (gideon_core.py lines 88-117) -/

/-- Substring-containment contribution of the link comparison
(gideon_core.py line 103): weight 0.8 when either link contains the
other and the returned link is nonempty, else 0. -/
def linkScore (ret_link art_link : String) : ℚ :=
  if ret_link ≠ "" ∧ (substrOf ret_link art_link ∨ substrOf art_link ret_link)
  then 8/10 else 0

/-- Jaccard similarity of two token sets (gideon_core.py line 109). -/
def jaccard (t1 t2 : Finset String) : ℚ :=
  ((t1 ∩ t2).card : ℚ) / ((t1 ∪ t2).card : ℚ)

/-- Title contribution: the Jaccard similarity when both token sets are
nonempty, else 0 (gideon_core.py lines 106-110). -/
def titleScore (retTokens : Finset String) (art_title : String) : ℚ :=
  let t2 := tokenSet art_title
  if retTokens.Nonempty ∧ t2.Nonempty then jaccard retTokens t2 else 0

/-- Composite per-candidate score of `fuzzy_match_article`:
link substring part plus title token part. -/
def matchScore (ret_title ret_link : String) (art : Article) : ℚ :=
  linkScore ret_link art.link + titleScore (tokenSet ret_title) art.title

/-- The scanning loop of `fuzzy_match_article`: walks the candidate list
carrying the position counter, the best index and the best score.  An
exact nonempty link equality returns the current index immediately
(line 102); otherwise the composite score is compared strictly against
the best so far (line 112); after the loop the best index is returned
only if the best score strictly exceeds 0.3 (line 116), else -1. -/
def fuzzyLoop (ret_title ret_link : String) :
    List Article → ℕ → Int → ℚ → Int
  | [], _, best_idx, best_score =>
      if best_score > 3/10 then best_idx else -1
  | art :: rest, i, best_idx, best_score =>
      if ret_link ≠ "" ∧ ret_link = art.link then (i : Int)
      else
        let score := matchScore ret_title ret_link art
        if score > best_score then
          fuzzyLoop ret_title ret_link rest (i+1) (i : Int) score
        else
          fuzzyLoop ret_title ret_link rest (i+1) best_idx best_score

/-- Embeds `fuzzy_match_article` (gideon_core.py lines 88-117). -/
def fuzzy_match_article (ret_title ret_link : String)
    (articles : List Article) : Int :=
  fuzzyLoop ret_title ret_link articles 0 (-1) 0

/-! ## Weighted aggregation (FilteringPipeline.execute, gideon_core.py
lines 342-365; the same structure appears in Stage1Trial.convene,
ensemble.py lines 334-367).

Judge verdicts are modelled as a function from judge name and raw link
to an optional raw score, abstracting the nested dict
`all_verdicts[name][link]["score"]`; absence yields the default 0 via
`.get(link, {}).get("score", 0)`.  The iteration order of the Python
set union `all_links` is passed in explicitly as `linkOrder`. -/

structure AgentConfig where
  name : String
  weight : ℚ
deriving DecidableEq, Repr

/-- The inner loop of the aggregation (lines 350-357): for one raw link,
`weighted_sum += raw_score * weight` over the configured agents. -/
def weightedSum (configs : List AgentConfig)
    (verdicts : String → String → Option ℚ) (link : String) : ℚ :=
  configs.foldl (fun acc c => acc + ((verdicts c.name link).getD 0) * c.weight) 0

/-- The aggregation loop (lines 349-361): for each raw link of the union,
in iteration order, assign `final_scores[normalize_url(link)] =
weighted_sum(link)`, with later assignments overwriting earlier ones
exactly as Python dict assignment does. -/
def aggregate (configs : List AgentConfig)
    (verdicts : String → String → Option ℚ) (linkOrder : List String) :
    String → Option ℚ :=
  linkOrder.foldl
    (fun fs link => fun k =>
      if k = normalize_url link then some (weightedSum configs verdicts link)
      else fs k)
    (fun _ => none)

/-! ## Consensus voting (IntelligencePipeline.run_consensus_voting,
gideon_core.py lines 449-529).

Each voter is modelled by its parsed winners list, `none` standing for
an inference exception or an unparsable response: in the source both
failure modes raise before any vote of that voter is applied, so the
whole voter block is a no-op on the tally. -/

/-- One vote increment: `votes[idx] += 1` on the index-keyed tally. -/
def bump (votes : List ℕ) (i : ℕ) : List ℕ :=
  votes.set i (votes.getD i 0 + 1)

/-- Applies one voter to the tally (gideon_core.py lines 479-481 and
504-507): each returned citation is fuzzy-matched against the shortlist
and, when matched, increments that index by one; a failed voter
(`none`) leaves the tally unchanged. -/
def applyVoter (articles : List Article) (votes : List ℕ)
    (resp : Option (List Citation)) : List ℕ :=
  match resp with
  | none => votes
  | some winners =>
      winners.foldl
        (fun v item =>
          let idx := fuzzy_match_article item.title item.link articles
          if idx ≠ -1 then bump v idx.toNat else v)
        votes

/-- The vote tally of `run_consensus_voting`: a zero tally over the
shortlist, then the Gemini voter, then the Claude voter, sequentially. -/
def run_consensus_voting (articles : List Article)
    (gemini claude : Option (List Citation)) : List ℕ :=
  applyVoter articles
    (applyVoter articles (List.replicate articles.length 0) gemini) claude

/-! ## Context batching (ContextBatcher.create_batches, gideon_core.py
lines 257-279).

The deck before shuffling is `list(range(N)) * 3`; `random.shuffle`
produces an arbitrary permutation, so the shuffled deck is passed in as
an argument constrained by a permutation hypothesis.  The function
below returns, per emitted batch, the deduplicated candidate index
list; the source then renders each such list into one prompt string,
which does not affect which indices appear in which batch. -/

/-- The deck contents before shuffling: each index below `N`, three times. -/
def deckOf (N : ℕ) : List ℕ :=
  List.range N ++ List.range N ++ List.range N

/-- Chunking worker: peels one chunk of `B` elements at a time.  The
first argument is fuel bounding the number of chunks; it is always
called with fuel at least the list length, which suffices because each
step removes at least one element. -/
def chunkListAux (B : ℕ) : ℕ → List ℕ → List (List ℕ)
  | _, [] => []
  | 0, _ :: _ => []
  | fuel + 1, x :: xs =>
      (x :: xs.take (B - 1)) :: chunkListAux B fuel (xs.drop (B - 1))

/-- Chunking `[deck[i:i+B] for i in range(0, len(deck), B)]` for a
positive batch size `B` (the source always calls it with size 8; Python
raises on step 0, so batch size 0 is outside the modelled domain). -/
def chunkList (B : ℕ) (l : List ℕ) : List (List ℕ) :=
  chunkListAux B l.length l

/-- The emission loop (lines 270-277): each chunk is deduplicated
(`list(set(chunk))`, modelled as first-occurrence dedup, which has the
same membership), and a chunk whose index set was already emitted is
skipped (`tuple(sorted(clean_chunk)) in seen_combos`, modelled with the
index set itself as the canonical key). -/
def emitBatches : List (List ℕ) → List (Finset ℕ) → List (List ℕ)
  | [], _ => []
  | c :: rest, seen =>
      let cc := c.dedup
      if cc.toFinset ∈ seen then emitBatches rest seen
      else cc :: emitBatches rest (cc.toFinset :: seen)

/-- Embeds `ContextBatcher.create_batches` at the candidate index level:
chunk the shuffled deck, deduplicate within each chunk, skip chunks
whose index set was already emitted. -/
def create_batches (deck : List ℕ) (B : ℕ) : List (List ℕ) :=
  emitBatches (chunkList B deck) []

/-! ## Stage-one judge batch retry (Stage1Judge.verdict, ensemble.py
lines 225-289; the core variant HeuristicAgent.evaluate_batch,
gideon_core.py lines 289-318, has no parse-level retry loop of its own).

One batch attempt, that is one inference call followed by sanitizing and
parsing, is modelled as a function from the attempt number to `none`
(exception, empty response, parse failure) or the parsed item list.
The source loop is `while attempts < 5 and not success`, with
`attempts` incremented on each failure and a sleep of `attempts * 2`
seconds between attempts; sleeping does not affect the verdict value
and is not modelled. -/

/-- One parsed element of the structured response, with defaults already
applied as by `item.get("score", 0)` and the rationale default; a
missing link is the empty string and causes the item to be skipped. -/
structure VerdictItem where
  link : String
  title : String
  score : ℚ
  rationale : String
deriving DecidableEq, Repr

/-- One stored verdict entry (the dict stored under `final_results[link]`). -/
structure VerdictEntry where
  judge : String
  title : String
  score : ℚ
  rationale : String
deriving DecidableEq, Repr

/-- Merging one parsed item list into the verdict map (ensemble.py lines
264-273): items with a nonempty link overwrite the entry for that link,
last write wins. -/
def processItems (judgeTitle : String)
    (results : String → Option VerdictEntry) (items : List VerdictItem) :
    String → Option VerdictEntry :=
  items.foldl
    (fun res item =>
      if item.link ≠ "" then
        fun k =>
          if k = item.link then
            some ⟨judgeTitle, item.title, item.score, item.rationale⟩
          else res k
      else res)
    results

/-- The per-batch retry loop `while attempts < 5 and not success`
(ensemble.py lines 244-281): try attempts in order until one parses,
giving up after five failed attempts.  The first argument is fuel,
always at least `5 - attempts`, so the `attempts < 5` test is the
deciding condition exactly as in the source loop. -/
def retryBatchAux (f : ℕ → Option (List VerdictItem)) :
    ℕ → ℕ → Option (List VerdictItem)
  | 0, _ => none
  | fuel + 1, attempts =>
      if attempts < 5 then
        match f attempts with
        | some r => some r
        | none => retryBatchAux f fuel (attempts + 1)
      else none

/-- The batch retry loop started at `attempts = 0`. -/
def retryBatch (f : ℕ → Option (List VerdictItem)) :
    Option (List VerdictItem) :=
  retryBatchAux f 5 0

/-- Embeds `Stage1Judge.verdict`: batches are processed in order; a batch
whose five attempts all fail contributes nothing; a successful batch
merges its items with last-write-wins; the function is total, so the
evaluation never raises. -/
def verdict (judgeTitle : String)
    (outcomes : ℕ → ℕ → Option (List VerdictItem)) (nBatches : ℕ) :
    String → Option VerdictEntry :=
  (List.range nBatches).foldl
    (fun res b =>
      match retryBatch (outcomes b) with
      | some items => processItems judgeTitle res items
      | none => res)
    (fun _ => none)

/-! ## Retry policy (retry_policy, gideon_core.py lines 54-72).

The wrapped operation is modelled as a function from the attempt index
(0-based, as in `for attempt in range(retries)`) to `Except`: `ok` is a
normal return, `error` a raised exception.  The run returns the pair of
the final outcome and the list of sleep durations performed, in order.
The outer `Option` is `none` only in the fall-through case `retries = 0`
where the Python wrapper returns `None` without calling the operation;
the source default is `retries = 5`, `delay = 60`. -/

def retry_policy_default_retries : ℕ := 5

def retry_policy_default_delay : ℕ := 60

/-- The attempt loop of `retry_policy` from a given attempt index: on
success return the result with no further sleeps; on failure, if this
was not the last attempt, sleep `delay * (attempt + 1)` and continue,
else re-raise the exception of this final attempt.  The first `ℕ`
argument is fuel, always at least `retries - attempt`, so the loop is
governed by the `attempt < retries` test as in the source. -/
def retryFromAux {ε α : Type} (retries delay : ℕ) (op : ℕ → Except ε α) :
    ℕ → ℕ → Option (Except ε α) × List ℕ
  | 0, _ => (none, [])
  | fuel + 1, attempt =>
      if attempt < retries then
        match op attempt with
        | Except.ok a => (some (Except.ok a), [])
        | Except.error e =>
            if attempt < retries - 1 then
              let r := retryFromAux retries delay op fuel (attempt + 1)
              (r.1, delay * (attempt + 1) :: r.2)
            else (some (Except.error e), [])
      else (none, [])

/-- Embeds the decorated call: run the attempt loop from attempt 0. -/
def retry_policy {ε α : Type} (retries delay : ℕ) (op : ℕ → Except ε α) :
    Option (Except ε α) × List ℕ :=
  retryFromAux retries delay op retries 0

/-! ## Concrete scenario data used by the claim theorems below -/

/-- Concrete verdicts for the normalization-collision scenario: judge j1
scores the candidate under one spelling, judge j2 under another spelling
of the same URL. -/
def cexVerdicts : String → String → Option ℚ := fun j l =>
  if j = "j1" ∧ l = "http://example.com/a" then some 80
  else if j = "j2" ∧ l = "https://www.example.com/a/" then some 40
  else none

def cexConfigs : List AgentConfig := [⟨"j1", 1/2⟩, ⟨"j2", 1/2⟩]

/-- Concrete shortlist entry and citation used in the voting scenarios. -/
def dupArticle : Article := ⟨"https://x.com/p", "Post", "", "", ""⟩

def dupCitation : Citation := ⟨"Post", "https://x.com/p"⟩

/-- Attempt outcomes making the first four attempts of the only batch
fail and the fifth succeed. -/
def cexOutcomes : ℕ → ℕ → Option (List VerdictItem) := fun b k =>
  if b = 0 ∧ k = 4 then some [⟨"http://x", "T", 50, "r"⟩] else none

/-! ## Helper lemmas: fuzzy matching -/

theorem linkScore_nonneg (rl al : String) : 0 ≤ linkScore rl al := by
  unfold linkScore; split <;> norm_num

theorem linkScore_le (rl al : String) : linkScore rl al ≤ 8/10 := by
  unfold linkScore; split <;> norm_num

theorem jaccard_nonneg (t1 t2 : Finset String) : 0 ≤ jaccard t1 t2 := by
  unfold jaccard
  positivity

theorem jaccard_le_one (t1 t2 : Finset String) : jaccard t1 t2 ≤ 1 := by
  unfold jaccard
  rcases Nat.eq_zero_or_pos (t1 ∪ t2).card with h | h
  · simp [h]
  · rw [div_le_one (by exact_mod_cast h)]
    exact_mod_cast Finset.card_le_card Finset.inter_subset_union

theorem titleScore_nonneg (t : Finset String) (s : String) :
    0 ≤ titleScore t s := by
  unfold titleScore
  dsimp only
  split
  · exact jaccard_nonneg _ _
  · norm_num

theorem titleScore_le_one (t : Finset String) (s : String) :
    titleScore t s ≤ 1 := by
  unfold titleScore
  dsimp only
  split
  · exact jaccard_le_one _ _
  · norm_num

theorem matchScore_le (t rl : String) (art : Article) :
    matchScore t rl art ≤ 8/10 + 1 :=
  add_le_add (linkScore_le _ _) (titleScore_le_one _ _)

/-- Walking the loop past a prefix with no exact link match reaches the
first exact match and returns its position, for any carried best index
and best score, hence regardless of any title text. -/
theorem fuzzyLoop_exact (t rl : String) (hrl : rl ≠ "") (a : Article)
    (ha : a.link = rl) :
    ∀ (pre : List Article) (post : List Article) (i : ℕ) (b : Int) (s : ℚ),
      (∀ x ∈ pre, x.link ≠ rl) →
      fuzzyLoop t rl (pre ++ a :: post) i b s = ((i + pre.length : ℕ) : Int) := by
  intro pre
  induction pre with
  | nil =>
      intro post i b s _
      simp only [List.nil_append, fuzzyLoop]
      rw [if_pos ⟨hrl, ha.symm⟩]
      simp
  | cons x xs ih =>
      intro post i b s hpre
      have hx : ¬(rl ≠ "" ∧ rl = x.link) := by
        rintro ⟨_, h⟩
        exact hpre x (List.mem_cons_self _ _) h.symm
      simp only [List.cons_append, fuzzyLoop, if_neg hx, List.append_eq]
      have hxs : ∀ y ∈ xs, y.link ≠ rl := fun y hy =>
        hpre y (List.mem_cons_of_mem _ hy)
      split
      · rw [ih post (i+1) (i : Int) _ hxs]
        push_cast [List.length_cons]
        ring
      · rw [ih post (i+1) b s hxs]
        push_cast [List.length_cons]
        ring

/-- If no remaining candidate matches the link exactly, every remaining
composite score is at most 0.3 and the best score so far is at most 0.3,
the loop returns -1. -/
theorem fuzzyLoop_below (t rl : String) :
    ∀ (l : List Article) (i : ℕ) (b : Int) (s : ℚ),
      (∀ art ∈ l, ¬(rl ≠ "" ∧ rl = art.link)) →
      (∀ art ∈ l, matchScore t rl art ≤ 3/10) → s ≤ 3/10 →
      fuzzyLoop t rl l i b s = -1 := by
  intro l
  induction l with
  | nil =>
      intro i b s _ _ hs
      simp only [fuzzyLoop]
      rw [if_neg (by exact not_lt.2 hs)]
  | cons a rest ih =>
      intro i b s hex hsc hs
      simp only [fuzzyLoop, if_neg (hex a (List.mem_cons_self _ _))]
      have hrest_ex : ∀ art ∈ rest, ¬(rl ≠ "" ∧ rl = art.link) :=
        fun art h => hex art (List.mem_cons_of_mem _ h)
      have hrest_sc : ∀ art ∈ rest, matchScore t rl art ≤ 3/10 :=
        fun art h => hsc art (List.mem_cons_of_mem _ h)
      split
      · exact ih (i+1) (i : Int) _ hrest_ex hrest_sc
          (hsc a (List.mem_cons_self _ _))
      · exact ih (i+1) b s hrest_ex hrest_sc hs

/-- If no remaining candidate matches the link exactly and the loop does
not return -1, either it returns the carried best index under a carried
best score above 0.3, or some remaining candidate has composite score
above 0.3. -/
theorem fuzzyLoop_found (t rl : String) :
    ∀ (l : List Article) (i : ℕ) (b : Int) (s : ℚ),
      (∀ art ∈ l, ¬(rl ≠ "" ∧ rl = art.link)) →
      fuzzyLoop t rl l i b s ≠ -1 →
      (fuzzyLoop t rl l i b s = b ∧ 3/10 < s) ∨
        ∃ art ∈ l, 3/10 < matchScore t rl art := by
  intro l
  induction l with
  | nil =>
      intro i b s _ hne
      simp only [fuzzyLoop] at hne ⊢
      split
      · next h => exact Or.inl ⟨rfl, h⟩
      · next h => exact absurd (by rw [if_neg h]) hne
  | cons a rest ih =>
      intro i b s hex hne
      have hexa := hex a (List.mem_cons_self _ _)
      simp only [fuzzyLoop, if_neg hexa] at hne ⊢
      have hrest : ∀ art ∈ rest, ¬(rl ≠ "" ∧ rl = art.link) :=
        fun art h => hex art (List.mem_cons_of_mem _ h)
      by_cases hgt : matchScore t rl a > s
      · rw [if_pos hgt] at hne ⊢
        rcases ih (i+1) (i : Int) _ hrest hne with h | h
        · exact Or.inr ⟨a, List.mem_cons_self _ _, h.2⟩
        · exact Or.inr ⟨h.choose, List.mem_cons_of_mem _ h.choose_spec.1,
            h.choose_spec.2⟩
      · rw [if_neg hgt] at hne ⊢
        rcases ih (i+1) b s hrest hne with h | h
        · exact Or.inl h
        · exact Or.inr ⟨h.choose, List.mem_cons_of_mem _ h.choose_spec.1,
            h.choose_spec.2⟩

/-- The loop only returns -1 or a position in range, provided the carried
best index is -1 or in range below the position counter. -/
theorem fuzzyLoop_bounds (t rl : String) :
    ∀ (l : List Article) (i : ℕ) (b : Int) (s : ℚ),
      (b = -1 ∨ (0 ≤ b ∧ b < (i : Int))) →
      (fuzzyLoop t rl l i b s = -1 ∨
        (0 ≤ fuzzyLoop t rl l i b s ∧
          fuzzyLoop t rl l i b s < ((i + l.length : ℕ) : Int))) := by
  intro l
  induction l with
  | nil =>
      intro i b s hb
      simp only [fuzzyLoop]
      split
      · rcases hb with h | h
        · exact Or.inl h
        · exact Or.inr ⟨h.1, by simpa using h.2⟩
      · exact Or.inl rfl
  | cons a rest ih =>
      intro i b s hb
      simp only [fuzzyLoop]
      split
      · refine Or.inr ⟨Int.ofNat_nonneg i, ?_⟩
        push_cast [List.length_cons]
        omega
      · split
        · rcases ih (i+1) (i : Int) _
            (Or.inr ⟨Int.ofNat_nonneg i, by push_cast; omega⟩) with h | h
          · exact Or.inl h
          · refine Or.inr ⟨h.1, ?_⟩
            have h2 := h.2
            push_cast [List.length_cons] at h2 ⊢
            omega
        · rcases ih (i+1) b s (by
            rcases hb with h | h
            · exact Or.inl h
            · exact Or.inr ⟨h.1, by push_cast at h ⊢; omega⟩) with h | h
          · exact Or.inl h
          · refine Or.inr ⟨h.1, ?_⟩
            have h2 := h.2
            push_cast [List.length_cons] at h2 ⊢
            omega

/-- Range of `fuzzy_match_article`: -1 or a valid index. -/
theorem fuzzy_match_article_bounds (t rl : String) (articles : List Article) :
    fuzzy_match_article t rl articles = -1 ∨
      (0 ≤ fuzzy_match_article t rl articles ∧
        fuzzy_match_article t rl articles < (articles.length : Int)) := by
  have h := fuzzyLoop_bounds t rl articles 0 (-1) 0 (Or.inl rfl)
  simpa [fuzzy_match_article] using h

/-! ## Claims C5 and C10: fuzzy matching -/

/-- Claim C5: fuzzy matching resolves a citation to a shortlist index only
when its composite confidence score exceeds the fixed 0.3 threshold,
otherwise it returns -1; and a citation whose (nonempty) link is exactly
equal to some candidate's link returns the index of the first such
candidate immediately, regardless of title text. -/
theorem fuzzy_match_threshold_and_exact (t rl : String)
    (pre post articles : List Article) (a : Article) :
    (articles = pre ++ a :: post → rl ≠ "" → a.link = rl →
      (∀ x ∈ pre, x.link ≠ rl) →
      fuzzy_match_article t rl articles = (pre.length : Int))
    ∧ ((∀ art ∈ articles, ¬(rl ≠ "" ∧ rl = art.link)) →
      (∀ art ∈ articles, matchScore t rl art ≤ 3/10) →
      fuzzy_match_article t rl articles = -1) := by
  constructor
  · intro he hrl ha hpre
    subst he
    have h := fuzzyLoop_exact t rl hrl a ha pre post 0 (-1) 0 hpre
    simpa [fuzzy_match_article] using h
  · intro h1 h2
    exact fuzzyLoop_below t rl articles 0 (-1) 0 h1 h2 (by norm_num)

/-- Witness for C5: an exact-link citation resolves to index 1 despite an
unrelated title, and a citation with no link and no shared title token
resolves to -1. -/
theorem fuzzy_match_threshold_and_exact_witness :
    fuzzy_match_article "anything at all" "http://b.com"
      [⟨"http://a.com", "totally different words here", "", "", ""⟩,
        ⟨"http://b.com", "T", "", "", ""⟩] = 1
    ∧ fuzzy_match_article "zz qq" ""
      [⟨"http://a.com", "", "", "", ""⟩] = -1 := by
  constructor
  · exact (fuzzy_match_threshold_and_exact "anything at all" "http://b.com"
      [⟨"http://a.com", "totally different words here", "", "", ""⟩] []
      _ ⟨"http://b.com", "T", "", "", ""⟩).1 rfl (by decide) rfl (by decide)
  · refine (fuzzy_match_threshold_and_exact "zz qq" "" [] []
      [⟨"http://a.com", "", "", "", ""⟩]
      ⟨"", "", "", "", ""⟩).2 (by decide) ?_
    intro art hart
    simp only [List.mem_singleton] at hart
    subst hart
    have hl : linkScore "" "http://a.com" = 0 := by
      unfold linkScore
      rw [if_neg]
      rintro ⟨h, _⟩
      exact h rfl
    have ht : titleScore (tokenSet "zz qq") "" = 0 := by
      unfold titleScore
      dsimp only
      rw [if_neg]
      rintro ⟨_, h⟩
      exact absurd h (by decide)
    rw [matchScore, hl, ht]
    norm_num

/-- Claim C10: the exact-link short-circuit compares links by raw string
equality without URL normalization: two spellings that normalize to the
same key do not trigger the immediate match (concretely, a citation link
differing from the only candidate's link in scheme, www. prefix and
trailing slash yields -1 when no other signal is present); when no
candidate's link is exactly equal, a successful match can only come from
a composite score above 0.3, bounded by the 0.8 substring-containment
weight plus the title-token similarity of at most 1. -/
theorem exact_link_no_normalization :
    (normalize_url "http://example.com/a" = normalize_url "https://www.example.com/a/"
      ∧ "http://example.com/a" ≠ "https://www.example.com/a/"
      ∧ fuzzy_match_article "" "http://example.com/a"
          [⟨"https://www.example.com/a/", "", "", "", ""⟩] = -1)
    ∧ ∀ (t rl : String) (articles : List Article),
        (∀ art ∈ articles, rl ≠ art.link) →
        fuzzy_match_article t rl articles ≠ -1 →
        ∃ art ∈ articles,
          3/10 < matchScore t rl art ∧ matchScore t rl art ≤ 8/10 + 1 := by
  constructor
  · refine ⟨by decide, by decide, ?_⟩
    refine (fuzzyLoop_below "" "http://example.com/a" _ 0 (-1) 0 ?_ ?_
      (by norm_num) : fuzzy_match_article _ _ _ = -1)
    · intro art hart
      simp only [List.mem_singleton] at hart
      subst hart
      rintro ⟨_, h⟩
      exact absurd h (by decide)
    · intro art hart
      simp only [List.mem_singleton] at hart
      subst hart
      have hl : linkScore "http://example.com/a" "https://www.example.com/a/" = 0 := by
        unfold linkScore
        rw [if_neg]
        rintro ⟨_, h⟩
        exact absurd h (by decide)
      have ht : titleScore (tokenSet "") "" = 0 := by
        unfold titleScore
        dsimp only
        rw [if_neg]
        rintro ⟨h, _⟩
        exact absurd h (by decide)
      rw [matchScore, hl, ht]
      norm_num
  · intro t rl articles hraw hne
    have hex : ∀ art ∈ articles, ¬(rl ≠ "" ∧ rl = art.link) := by
      intro art hart
      rintro ⟨_, h⟩
      exact hraw art hart h
    rcases fuzzyLoop_found t rl articles 0 (-1) 0 hex hne with h | h
    · exact absurd h.2 (by norm_num)
    · exact ⟨h.choose, h.choose_spec.1, h.choose_spec.2, matchScore_le _ _ _⟩

/-- Witness for C10: a citation link that is a strict substring of the
candidate link (no raw equality) still matches through the 0.8
substring weight, exhibiting a composite score in the accepted range. -/
theorem exact_link_no_normalization_witness :
    ∃ art ∈ [(⟨"http://x/a", "hello world", "", "", ""⟩ : Article)],
      3/10 < matchScore "" "http://x/a/" art
        ∧ matchScore "" "http://x/a/" art ≤ 8/10 + 1 := by
  refine (exact_link_no_normalization).2 "" "http://x/a/"
    [⟨"http://x/a", "hello world", "", "", ""⟩] (by decide) ?_
  have hl : linkScore "http://x/a/" "http://x/a" = 8/10 := by
    unfold linkScore
    rw [if_pos]
    constructor
    · decide
    · right
      decide
  have ht : titleScore (tokenSet "") "hello world" = 0 := by
    unfold titleScore
    dsimp only
    rw [if_neg]
    rintro ⟨h, _⟩
    exact absurd h (by decide)
  have hs : matchScore "" "http://x/a/" ⟨"http://x/a", "hello world", "", "", ""⟩
      = 8/10 := by
    rw [matchScore, hl, ht, add_zero]
  have : fuzzy_match_article "" "http://x/a/"
      [⟨"http://x/a", "hello world", "", "", ""⟩]
      = fuzzyLoop "" "http://x/a/" [⟨"http://x/a", "hello world", "", "", ""⟩]
          0 (-1) 0 := rfl
  rw [this]
  simp only [fuzzyLoop]
  rw [if_neg (by rintro ⟨_, h⟩; exact absurd h (by decide))]
  rw [if_pos (by rw [hs]; norm_num), if_pos (by rw [hs]; norm_num)]
  decide

/-! ## Helper lemmas: weighted aggregation -/

theorem foldl_add_eq {α : Type} (g : α → ℚ) :
    ∀ (l : List α) (acc : ℚ),
      l.foldl (fun a c => a + g c) acc = acc + (l.map g).sum := by
  intro l
  induction l with
  | nil => intro acc; simp
  | cons x xs ih => intro acc; simp [ih, add_assoc]

/-- The per-link weighted sum is the sum over all configured judges of
the raw score (0 when absent) times the weight. -/
theorem weightedSum_eq_sum (configs : List AgentConfig)
    (verdicts : String → String → Option ℚ) (link : String) :
    weightedSum configs verdicts link
      = (configs.map (fun c => ((verdicts c.name link).getD 0) * c.weight)).sum := by
  unfold weightedSum
  rw [foldl_add_eq]
  simp

/-- The aggregation fold leaves a key untouched when no processed link
normalizes to it. -/
theorem aggFold_eq (configs : List AgentConfig)
    (verdicts : String → String → Option ℚ) :
    ∀ (order : List String) (init : String → Option ℚ) (k : String),
      (∀ l ∈ order, normalize_url l ≠ k) →
      (order.foldl
        (fun fs link => fun k' =>
          if k' = normalize_url link then some (weightedSum configs verdicts link)
          else fs k')
        init) k = init k := by
  intro order
  induction order with
  | nil => intro init k _; rfl
  | cons l rest ih =>
      intro init k h
      simp only [List.foldl_cons]
      rw [ih _ k (fun x hx => h x (List.mem_cons_of_mem _ hx))]
      exact if_neg (fun he => h l (List.mem_cons_self _ _) he.symm)

/-- When a link occurs in the processed order and no other processed link
normalizes to the same key, the final map holds its weighted sum at the
normalized key. -/
theorem aggFold_unique (configs : List AgentConfig)
    (verdicts : String → String → Option ℚ) :
    ∀ (order : List String) (init : String → Option ℚ) (link : String),
      link ∈ order →
      (∀ l' ∈ order, normalize_url l' = normalize_url link → l' = link) →
      (order.foldl
        (fun fs link' => fun k' =>
          if k' = normalize_url link' then some (weightedSum configs verdicts link')
          else fs k')
        init) (normalize_url link)
        = some (weightedSum configs verdicts link) := by
  intro order
  induction order with
  | nil => intro init link h; exact absurd h (List.not_mem_nil _)
  | cons l rest ih =>
      intro init link hmem huniq
      simp only [List.foldl_cons]
      by_cases hr : link ∈ rest
      · exact ih _ link hr (fun x hx => huniq x (List.mem_cons_of_mem _ hx))
      · have hl : l = link := by
          rcases List.mem_cons.1 hmem with h | h
          · exact h.symm
          · exact absurd h hr
        subst hl
        rw [aggFold_eq configs verdicts rest _ (normalize_url l) ?_]
        · exact if_pos rfl
        · intro x hx he
          exact hr ((huniq x (List.mem_cons_of_mem _ hx) he) ▸ hx)

/-! ## Claims C1 and C2: aggregation join key and weighting -/

/-- Counterexample for claim C1: two judge verdicts referencing the same
candidate under two spellings that normalize to the same key.  The
aggregator computes the per-judge sum joined on the raw link, so the
single normalized entry carries only the contribution of the spelling
processed last (here 40 × 0.5 = 20), not the weighted sum over both
judges (80 × 0.5 + 40 × 0.5 = 60); with the opposite union order it
carries 40 instead, never 60. -/
theorem aggregation_normalized_join_cex :
    normalize_url "http://example.com/a" = normalize_url "https://www.example.com/a/"
    ∧ aggregate cexConfigs cexVerdicts
        ["http://example.com/a", "https://www.example.com/a/"] "example.com/a"
        = some 20
    ∧ aggregate cexConfigs cexVerdicts
        ["https://www.example.com/a/", "http://example.com/a"] "example.com/a"
        = some 40
    ∧ (20 : ℚ) ≠ 80 * (1/2) + 40 * (1/2)
    ∧ (40 : ℚ) ≠ 80 * (1/2) + 40 * (1/2) := by
  have h1 : normalize_url "http://example.com/a" = "example.com/a" := by decide
  have h2 : normalize_url "https://www.example.com/a/" = "example.com/a" := by decide
  refine ⟨h1.trans h2.symm, ?_, ?_, by norm_num, by norm_num⟩
  · simp only [aggregate, List.foldl_cons, List.foldl_nil, h1, h2, if_pos rfl]
    simp [weightedSum, cexConfigs, cexVerdicts, List.foldl_cons]
    norm_num
  · simp only [aggregate, List.foldl_cons, List.foldl_nil, h1, h2, if_pos rfl]
    simp [weightedSum, cexConfigs, cexVerdicts, List.foldl_cons]
    norm_num

/-- Claim C1, amended: when two raw spellings normalizing to the same key
are aggregated, the final map holds a single entry under the normalized
key, but its value is the weighted sum computed for the raw spelling
processed last, because the per-judge lookup joins on the raw link. -/
theorem aggregation_normalized_join_last_wins (configs : List AgentConfig)
    (verdicts : String → String → Option ℚ) (l1 l2 : String)
    (hnorm : normalize_url l1 = normalize_url l2) :
    aggregate configs verdicts [l1, l2] (normalize_url l1)
      = some (weightedSum configs verdicts l2) := by
  simp [aggregate, List.foldl_cons, List.foldl_nil, hnorm, if_pos rfl]

/-- Witness for the amended C1 at the concrete collision scenario. -/
theorem aggregation_normalized_join_last_wins_witness :
    aggregate cexConfigs cexVerdicts
      ["http://example.com/a", "https://www.example.com/a/"]
      (normalize_url "http://example.com/a")
      = some (weightedSum cexConfigs cexVerdicts "https://www.example.com/a/") :=
  aggregation_normalized_join_last_wins cexConfigs cexVerdicts
    "http://example.com/a" "https://www.example.com/a/" (by decide)

/-- Claim C2: for an identity in the union of all configured judges'
verdicts whose normalized key is not shared by another union member, the
aggregated weighted score equals the sum over all configured judges of
the raw score (0 when the identity is absent from that judge's verdict)
times the judge's weight. -/
theorem aggregation_weighted_sum (configs : List AgentConfig)
    (verdicts : String → String → Option ℚ) (linkOrder : List String)
    (link : String) (hmem : link ∈ linkOrder)
    (huniq : ∀ l' ∈ linkOrder, normalize_url l' = normalize_url link → l' = link) :
    aggregate configs verdicts linkOrder (normalize_url link)
      = some ((configs.map
          (fun c => ((verdicts c.name link).getD 0) * c.weight)).sum) := by
  unfold aggregate
  rw [aggFold_unique configs verdicts linkOrder _ link hmem huniq,
    weightedSum_eq_sum]

/-- Witness for C2: the spec example, judges j1 and j2 scoring the same
identity 80 and 40 under weights 0.5 and 0.5, aggregates to 60. -/
theorem aggregation_weighted_sum_witness :
    aggregate [⟨"j1", 1/2⟩, ⟨"j2", 1/2⟩]
      (fun j l => if j = "j1" ∧ l = "http://a.com/x" then some 80
        else if j = "j2" ∧ l = "http://a.com/x" then some 40 else none)
      ["http://a.com/x"] (normalize_url "http://a.com/x") = some 60 := by
  rw [aggregation_weighted_sum _ _ _ "http://a.com/x" (by decide) (by decide)]
  simp
  norm_num

/-! ## Helper lemmas: consensus voting -/

theorem bump_length (v : List ℕ) (i : ℕ) : (bump v i).length = v.length := by
  simp [bump]

theorem bump_getD_self (v : List ℕ) (i : ℕ) (h : i < v.length) :
    (bump v i).getD i 0 = v.getD i 0 + 1 := by
  simp [bump, List.getD_eq_getElem?_getD, List.getElem?_set_self, h]

theorem bump_getD_ne (v : List ℕ) (i j : ℕ) (h : i ≠ j) :
    (bump v j).getD i 0 = v.getD i 0 := by
  simp [bump, List.getD_eq_getElem?_getD, List.getElem?_set_ne (Ne.symm h)]

theorem applyVoter_some_length (articles : List Article) :
    ∀ (ws : List Citation) (v : List ℕ),
      (applyVoter articles v (some ws)).length = v.length := by
  intro ws
  induction ws with
  | nil => intro v; rfl
  | cons c rest ih =>
      intro v
      simp only [applyVoter, List.foldl_cons] at ih ⊢
      rw [ih]
      split
      · exact bump_length v _
      · rfl

/-- Core counting property of a single voter application: the final count
of a shortlist index is the initial count plus the number of citations
in the response that fuzzy-resolve to that index.  In particular a
response listing the same candidate twice increments its count twice. -/
theorem applyVoter_count (articles : List Article) :
    ∀ (ws : List Citation) (votes : List ℕ) (i : ℕ),
      votes.length = articles.length → i < articles.length →
      (applyVoter articles votes (some ws)).getD i 0
        = votes.getD i 0
          + (ws.filter (fun c =>
              fuzzy_match_article c.title c.link articles = (i : Int))).length := by
  intro ws
  induction ws with
  | nil => intro votes i _ _; simp [applyVoter]
  | cons c rest ih =>
      intro votes i hlen hi
      simp only [applyVoter, List.foldl_cons] at ih ⊢
      by_cases hidx : fuzzy_match_article c.title c.link articles = -1
      · rw [if_neg (not_not_intro hidx)]
        rw [ih votes i hlen hi]
        have hne : ¬(fuzzy_match_article c.title c.link articles = (i : Int)) := by
          rw [hidx]; intro h; omega
        simp [List.filter_cons, hne]
      · rcases fuzzy_match_article_bounds c.title c.link articles with h | h
        · exact absurd h hidx
        rw [if_pos hidx]
        rw [ih (bump votes (fuzzy_match_article c.title c.link articles).toNat) i
          (by rw [bump_length]; exact hlen) hi]
        by_cases heq : fuzzy_match_article c.title c.link articles = (i : Int)
        · have htn : (fuzzy_match_article c.title c.link articles).toNat = i := by
            omega
          rw [htn, bump_getD_self votes i (hlen ▸ hi)]
          simp [List.filter_cons, heq]
          omega
        · have htn : (fuzzy_match_article c.title c.link articles).toNat ≠ i := by
            omega
          rw [bump_getD_ne votes i _ (Ne.symm htn)]
          simp [List.filter_cons, heq]

/-! ## Claims C3 and C4: vote deduplication and voter failure isolation -/

/-- Counterexample for claim C3: a single voter response listing the same
exactly-matching citation twice raises that candidate's count to 2, not
1 — the tally loop has no per-voter deduplication. -/
theorem voter_dedup_cex :
    run_consensus_voting [dupArticle] (some [dupCitation, dupCitation]) none = [2]
    ∧ (2 : ℕ) ≠ 1 := by decide

/-- Claim C3, amended: each successfully matched citation increments the
candidate's vote count by 1 with no per-voter deduplication, so within a
single response the candidate's final count is the number of citations
that resolve to it (2 when it is listed twice), on top of the zero
initial tally. -/
theorem voter_citation_count (articles : List Article) (ws : List Citation)
    (i : ℕ) (h : i < articles.length) :
    (run_consensus_voting articles (some ws) none).getD i 0
      = (ws.filter (fun c =>
          fuzzy_match_article c.title c.link articles = (i : Int))).length := by
  have hz : run_consensus_voting articles (some ws) none
      = applyVoter articles (List.replicate articles.length 0) (some ws) := rfl
  rw [hz, applyVoter_count articles ws _ i (by simp) h]
  simp [List.getD_eq_getElem?_getD]

/-- Witness for the amended C3: the duplicate-citation response yields
count 2. -/
theorem voter_citation_count_witness :
    (0 : ℕ) < 1
    ∧ (run_consensus_voting [dupArticle]
        (some [dupCitation, dupCitation]) none).getD 0 0 = 2 := by
  refine ⟨by decide, ?_⟩
  rw [voter_citation_count [dupArticle] [dupCitation, dupCitation] 0 (by decide)]
  decide

/-- Claim C4: a voter whose inference call raises or whose response is
unparsable (modelled as `none`, since both failure modes raise before
any of that voter's votes are applied) contributes zero votes, and the
tally is exactly what the surviving voter alone would produce: the
count of every index is the number of the surviving voter's citations
resolving to it. -/
theorem vote_tally_independence (articles : List Article) (ws : List Citation)
    (i : ℕ) (h : i < articles.length) :
    run_consensus_voting articles none (some ws)
        = applyVoter articles (List.replicate articles.length 0) (some ws)
    ∧ run_consensus_voting articles (some ws) none
        = applyVoter articles (List.replicate articles.length 0) (some ws)
    ∧ (run_consensus_voting articles none (some ws)).getD i 0
        = (ws.filter (fun c =>
            fuzzy_match_article c.title c.link articles = (i : Int))).length := by
  refine ⟨rfl, rfl, ?_⟩
  have hz : run_consensus_voting articles none (some ws)
      = applyVoter articles (List.replicate articles.length 0) (some ws) := rfl
  rw [hz, applyVoter_count articles ws _ i (by simp) h]
  simp [List.getD_eq_getElem?_getD]

/-- Witness for C4: with the first voter failed, the surviving voter's
single exact citation yields count 1. -/
theorem vote_tally_independence_witness :
    (0 : ℕ) < 1
    ∧ (run_consensus_voting [dupArticle] none (some [dupCitation])).getD 0 0 = 1 := by
  refine ⟨by decide, ?_⟩
  rw [(vote_tally_independence [dupArticle] [dupCitation] 0 (by decide)).2.2]
  decide

/-! ## Helper lemmas: context batching -/

/-- Concatenating the chunks gives back the original deck (with adequate
fuel): chunking loses no element. -/
theorem chunkListAux_flatten (B : ℕ) :
    ∀ (fuel : ℕ) (l : List ℕ), l.length ≤ fuel →
      (chunkListAux B fuel l).flatten = l := by
  intro fuel
  induction fuel with
  | zero =>
      intro l hl
      have : l = [] := List.eq_nil_of_length_eq_zero (Nat.le_zero.1 hl)
      subst this
      rfl
  | succ n ih =>
      intro l hl
      cases l with
      | nil => rfl
      | cons x xs =>
          simp only [chunkListAux, List.flatten_cons]
          rw [ih (xs.drop (B - 1)) (by
            simp only [List.length_drop]
            have : xs.length ≤ n := by
              simpa [Nat.succ_le_succ_iff] using hl
            omega)]
          simp [List.take_append_drop]

theorem chunkList_flatten (B : ℕ) (l : List ℕ) :
    (chunkList B l).flatten = l :=
  chunkListAux_flatten B l.length l le_rfl

/-- Every deck element lands in some chunk. -/
theorem mem_chunkList (B : ℕ) (l : List ℕ) (k : ℕ) (hk : k ∈ l) :
    ∃ c ∈ chunkList B l, k ∈ c := by
  rw [← chunkList_flatten B l] at hk
  exact List.mem_flatten.1 hk

/-- Emission invariant: an index occurring in some pending chunk occurs
either in an emitted batch or in one of the already-seen index sets. -/
theorem emitBatches_cover :
    ∀ (chunks : List (List ℕ)) (seen : List (Finset ℕ)) (k : ℕ),
      (∃ c ∈ chunks, k ∈ c) →
      (∃ b ∈ emitBatches chunks seen, k ∈ b) ∨ ∃ s ∈ seen, k ∈ s := by
  intro chunks
  induction chunks with
  | nil =>
      intro seen k h
      rcases h with ⟨c, hc, _⟩
      exact absurd hc (List.not_mem_nil _)
  | cons c rest ih =>
      intro seen k h
      simp only [emitBatches]
      by_cases hseen : c.dedup.toFinset ∈ seen
      · rw [if_pos hseen]
        rcases h with ⟨c', hc', hk⟩
        rcases List.mem_cons.1 hc' with h' | h'
        · subst h'
          exact Or.inr ⟨c'.dedup.toFinset, hseen,
            List.mem_toFinset.2 (List.mem_dedup.2 hk)⟩
        · exact ih seen k ⟨c', h', hk⟩
      · rw [if_neg hseen]
        rcases h with ⟨c', hc', hk⟩
        rcases List.mem_cons.1 hc' with h' | h'
        · subst h'
          exact Or.inl ⟨c'.dedup, List.mem_cons_self _ _, List.mem_dedup.2 hk⟩
        · rcases ih (c.dedup.toFinset :: seen) k ⟨c', h', hk⟩ with h2 | h2
          · exact Or.inl ⟨h2.choose, List.mem_cons_of_mem _ h2.choose_spec.1,
              h2.choose_spec.2⟩
          · rcases h2 with ⟨s, hs, hks⟩
            rcases List.mem_cons.1 hs with h3 | h3
            · subst h3
              exact Or.inl ⟨c.dedup, List.mem_cons_self _ _,
                List.mem_toFinset.1 hks⟩
            · exact Or.inr ⟨s, h3, hks⟩

theorem chunkListAux_nil (B fuel : ℕ) : chunkListAux B fuel [] = [] := by
  cases fuel <;> rfl

theorem mem_deckOf (N k : ℕ) : k ∈ deckOf N ↔ k < N := by
  simp [deckOf, List.mem_append, List.mem_range]

theorem deckOf_length (N : ℕ) : (deckOf N).length = 3 * N := by
  simp [deckOf]
  omega

/-! ## Claims C6 and C7: batching coverage and edge cases -/

/-- Claim C6: for every candidate count N > 0, positive batch size B and
shuffled deck (any permutation of the 3x-redundant index deck), every
candidate index below N appears in at least one emitted batch: in-batch
deduplication and the skipping of batches whose index set was already
emitted never drop all occurrences of an index. -/
theorem batching_coverage (N B : ℕ) (deck : List ℕ) (k : ℕ)
    (_hB : 0 < B) (hperm : deck.Perm (deckOf N)) (hk : k < N) :
    ∃ b ∈ create_batches deck B, k ∈ b := by
  have hkd : k ∈ deck := hperm.mem_iff.2 ((mem_deckOf N k).2 hk)
  rcases mem_chunkList B deck k hkd with ⟨c, hc, hkc⟩
  rcases emitBatches_cover (chunkList B deck) [] k ⟨c, hc, hkc⟩ with h | h
  · exact h
  · rcases h with ⟨s, hs, _⟩
    exact absurd hs (List.not_mem_nil _)

/-- Witness for C6: with two candidates, batch size 3 and the unshuffled
deck, index 0 appears in an emitted batch. -/
theorem batching_coverage_witness :
    ∃ b ∈ create_batches (deckOf 2) 3, 0 ∈ b :=
  batching_coverage 2 3 (deckOf 2) 0 (by decide) (List.Perm.refl _) (by decide)

/-- Counterexample for claim C7: candidate count 2 is below batch size 3,
yet the legitimate shuffle outcome [0,0,0,1,1,1] of the 3x deck yields
two emitted batches ([0] and [1]), not exactly one batch containing all
candidates. -/
theorem batching_edge_cex :
    ([0, 0, 0, 1, 1, 1] : List ℕ).Perm (deckOf 2)
    ∧ (2 : ℕ) < 3
    ∧ create_batches [0, 0, 0, 1, 1, 1] 3 = [[0], [1]]
    ∧ (create_batches [0, 0, 0, 1, 1, 1] 3).length ≠ 1 := by
  refine ⟨by decide, by decide, by decide, by decide⟩

/-- Claim C7, amended: a candidate count of 0 produces zero batches (not
an error); and when the whole 3x-redundant deck fits in one batch
(3N ≤ B) the batcher produces exactly one batch containing every
candidate exactly once.  For N < B ≤ 3N - 1 the shuffle can still
produce more than one batch, as the counterexample shows. -/
theorem batching_edge_cases (N B : ℕ) (deck : List ℕ)
    (_hB : 0 < B) (hperm : deck.Perm (deckOf N)) :
    (N = 0 → create_batches deck B = [])
    ∧ (0 < N → 3 * N ≤ B →
        ∃ b, create_batches deck B = [b] ∧ b.Nodup ∧ ∀ k, k ∈ b ↔ k < N) := by
  constructor
  · intro hN
    subst hN
    have : deck = [] := List.Perm.eq_nil (by simpa [deckOf] using hperm)
    subst this
    rfl
  · intro hN hNB
    have hlen : deck.length = 3 * N := by
      rw [List.Perm.length_eq hperm, deckOf_length]
    cases deck with
    | nil =>
        exfalso
        simp only [List.length_nil] at hlen
        omega
    | cons x xs =>
        have hxs : xs.length ≤ B - 1 := by
          simp only [List.length_cons] at hlen
          omega
        have hchunk : chunkList B (x :: xs) = [x :: xs] := by
          unfold chunkList
          simp only [List.length_cons, chunkListAux]
          rw [List.take_of_length_le hxs, List.drop_eq_nil_of_le hxs,
            chunkListAux_nil]
        refine ⟨(x :: xs).dedup, ?_, List.nodup_dedup _, ?_⟩
        · unfold create_batches
          rw [hchunk]
          simp [emitBatches]
        · intro k
          rw [List.mem_dedup, hperm.mem_iff, mem_deckOf]

/-- Witness for the amended C7: one candidate with batch size 3 yields
exactly one batch holding index 0 once; and candidate count 0 yields no
batches. -/
theorem batching_edge_cases_witness :
    (∃ b, create_batches (deckOf 1) 3 = [b] ∧ b.Nodup ∧ ∀ k, k ∈ b ↔ k < 1)
    ∧ create_batches (deckOf 0) 3 = [] := by
  constructor
  · exact (batching_edge_cases 1 3 (deckOf 1) (by decide)
      (List.Perm.refl _)).2 (by decide) (by decide)
  · exact (batching_edge_cases 0 3 (deckOf 0) (by decide)
      (List.Perm.refl _)).1 rfl

/-! ## Helper lemmas: judge batch retry -/

/-- If every attempt from the current one up to the fifth fails, the
batch retry loop gives up with `none`, whatever the fuel. -/
theorem retryBatchAux_none (f : ℕ → Option (List VerdictItem)) :
    ∀ (fuel a : ℕ), (∀ k, a ≤ k → k < 5 → f k = none) →
      retryBatchAux f fuel a = none := by
  intro fuel
  induction fuel with
  | zero => intro a _; rfl
  | succ n ih =>
      intro a h
      simp only [retryBatchAux]
      split
      · next ha =>
          rw [h a le_rfl ha]
          exact ih (a+1) (fun k hk => h k (by omega))
      · rfl

/-- The batch retry loop returns the first successful attempt's parse,
provided that attempt is within the five-attempt window and the fuel. -/
theorem retryBatchAux_succeeds (f : ℕ → Option (List VerdictItem)) :
    ∀ (fuel a j : ℕ) (r : List VerdictItem),
      a ≤ j → j < 5 → j < a + fuel →
      (∀ k, a ≤ k → k < j → f k = none) → f j = some r →
      retryBatchAux f fuel a = some r := by
  intro fuel
  induction fuel with
  | zero => intro a j r haj _ hj _ _; omega
  | succ n ih =>
      intro a j r haj hj5 hjf hfail hok
      simp only [retryBatchAux]
      rw [if_pos (by omega)]
      rcases Nat.eq_or_lt_of_le haj with he | hlt
      · subst he
        rw [hok]
      · rw [hfail a le_rfl hlt]
        exact ih (a+1) j r hlt hj5 (by omega) (fun k hk => hfail k (by omega)) hok

/-- When every batch exhausts its five attempts, the verdict fold never
merges anything. -/
theorem verdictFold_const (T : String)
    (outcomes : ℕ → ℕ → Option (List VerdictItem))
    (h : ∀ b, retryBatch (outcomes b) = none) :
    ∀ (L : List ℕ) (init : String → Option VerdictEntry),
      L.foldl
        (fun res b =>
          match retryBatch (outcomes b) with
          | some items => processItems T res items
          | none => res)
        init = init := by
  intro L
  induction L with
  | nil => intro init; rfl
  | cons b bs ih =>
      intro init
      simp only [List.foldl_cons, h b]
      exact ih init

/-! ## Claim C8: per-batch retry count and silent partial failure -/

/-- Counterexample for claim C8: the judge retries a failing batch up to
five times, not three — with the first four attempts failing, the fifth
attempt's parse still enters the verdict, where a three-attempt retry
would have dropped the batch. -/
theorem judge_retry_cex :
    cexOutcomes 0 0 = none ∧ cexOutcomes 0 1 = none
    ∧ cexOutcomes 0 2 = none ∧ cexOutcomes 0 3 = none
    ∧ verdict "Industry" cexOutcomes 1 "http://x"
        = some ⟨"Industry", "T", 50, "r"⟩
    ∧ some (⟨"Industry", "T", 50, "r"⟩ : VerdictEntry) ≠ none := by
  refine ⟨rfl, rfl, rfl, rfl, by decide, by decide⟩

/-- Claim C8, amended: for each batch the judge retries the inference
call and parse up to five times (`while attempts < 5`), with backoff
`attempts * 2` seconds between attempts; a batch succeeding at attempt
j < 5 after j failures contributes its parse, a batch whose five
attempts all fail contributes nothing to the verdict, and an evaluation
whose batches all fail still returns (the empty verdict) without
raising. -/
theorem judge_retry_five :
    (∀ f : ℕ → Option (List VerdictItem),
        (∀ k, k < 5 → f k = none) → retryBatch f = none)
    ∧ (∀ (f : ℕ → Option (List VerdictItem)) (j : ℕ) (r : List VerdictItem),
        j < 5 → (∀ k, k < j → f k = none) → f j = some r →
        retryBatch f = some r)
    ∧ (∀ (T : String) (outcomes : ℕ → ℕ → Option (List VerdictItem))
        (n : ℕ) (key : String),
        (∀ b a, a < 5 → outcomes b a = none) →
        verdict T outcomes n key = none) := by
  refine ⟨?_, ?_, ?_⟩
  · intro f h
    exact retryBatchAux_none f 5 0 (fun k _ hk => h k hk)
  · intro f j r hj hfail hok
    exact retryBatchAux_succeeds f 5 0 j r (Nat.zero_le _) hj (by omega)
      (fun k _ hk => hfail k hk) hok
  · intro T outcomes n key h
    unfold verdict
    rw [verdictFold_const T outcomes
      (fun b => retryBatchAux_none (outcomes b) 5 0 (fun k _ hk => h b k hk))]

/-- Witness for the amended C8: a batch failing all five attempts gives
up; one succeeding only at the fifth attempt is kept; a judge whose
batches all fail returns the empty verdict. -/
theorem judge_retry_five_witness :
    retryBatch (fun _ => none) = none
    ∧ retryBatch (fun k => if k = 4 then some [] else none) = some []
    ∧ verdict "J" (fun _ _ => none) 2 "x" = none := by
  refine ⟨judge_retry_five.1 _ (fun _ _ => rfl), ?_,
    judge_retry_five.2.2 "J" _ 2 "x" (fun _ _ _ => rfl)⟩
  exact judge_retry_five.2.1 _ 4 []
    (by omega) (fun k hk => by simp [Nat.ne_of_lt hk]) rfl

/-! ## Helper lemmas: retry policy -/

/-- The retry loop ignores attempts beyond the configured bound: two
operations agreeing on attempts below `retries` produce identical runs. -/
theorem retryFromAux_congr {ε α : Type} (retries delay : ℕ)
    (op op' : ℕ → Except ε α) :
    ∀ (fuel att : ℕ), (∀ k, att ≤ k → k < retries → op k = op' k) →
      retryFromAux retries delay op fuel att
        = retryFromAux retries delay op' fuel att := by
  intro fuel
  induction fuel with
  | zero => intro att _; rfl
  | succ n ih =>
      intro att h
      simp only [retryFromAux]
      split
      · next hlt =>
          rw [h att le_rfl hlt]
          cases op' att with
          | ok a => rfl
          | error e =>
              simp only
              split
              · rw [ih (att+1) (fun k hk => h k (by omega))]
              · rfl
      · rfl

/-- A successful attempt after a prefix of failures ends the loop with
that result, having slept `delay * m` for `m = att+1 .. j`. -/
theorem retryFromAux_ok {ε α : Type} (retries delay : ℕ)
    (op : ℕ → Except ε α) (a : α) :
    ∀ (fuel att j : ℕ), att ≤ j → j < retries → j < att + fuel →
      (∀ k, att ≤ k → k < j → ∃ e, op k = Except.error e) →
      op j = Except.ok a →
      retryFromAux retries delay op fuel att
        = (some (Except.ok a),
            (List.range' (att+1) (j - att)).map (fun m => delay * m)) := by
  intro fuel
  induction fuel with
  | zero => intro att j haj _ hjf _ _; omega
  | succ n ih =>
      intro att j haj hjr hjf hfail hok
      simp only [retryFromAux]
      rw [if_pos (by omega)]
      rcases Nat.eq_or_lt_of_le haj with he | hlt
      · subst he
        rw [hok]
        simp
      · rcases hfail att le_rfl hlt with ⟨e, he⟩
        rw [he]
        simp only
        rw [if_pos (by omega)]
        rw [ih (att+1) j hlt hjr (by omega)
          (fun k hk => hfail k (by omega)) hok]
        have hr : j - att = (j - (att+1)) + 1 := by omega
        rw [hr, List.range'_succ]
        simp

/-- When every attempt below the bound fails, the loop re-raises the
final attempt's exception, having slept `delay * m` for
`m = att+1 .. retries-1`. -/
theorem retryFromAux_allfail {ε α : Type} (retries delay : ℕ)
    (op : ℕ → Except ε α) (es : ℕ → ε) :
    ∀ (fuel att : ℕ), att < retries → retries ≤ att + fuel →
      (∀ k, att ≤ k → k < retries → op k = Except.error (es k)) →
      retryFromAux retries delay op fuel att
        = (some (Except.error (es (retries - 1))),
            (List.range' (att+1) (retries - 1 - att)).map (fun m => delay * m)) := by
  intro fuel
  induction fuel with
  | zero => intro att h1 h2 _; omega
  | succ n ih =>
      intro att h1 h2 hfail
      simp only [retryFromAux]
      rw [if_pos h1, hfail att le_rfl h1]
      simp only
      by_cases hlast : att < retries - 1
      · rw [if_pos hlast]
        rw [ih (att+1) (by omega) (by omega) (fun k hk => hfail k (by omega))]
        have hr : retries - 1 - att = (retries - 1 - (att+1)) + 1 := by omega
        rw [hr, List.range'_succ]
        simp
      · rw [if_neg hlast]
        have he : att = retries - 1 := by omega
        rw [he]
        simp

/-! ## Claim C9: retry policy contract -/

/-- Claim C9: the retry policy invokes the wrapped operation at most the
configured maximum attempt count, whose source default (5) lies in the
3-5 range; a success at attempt j (0-based, after j failures) returns
the operation's result as-is with sleeps `delay*1, ..., delay*j` — in
particular an immediate success sleeps never; and when every attempt
fails, the final attempt's exception is re-raised unchanged after
sleeps `delay*1, ..., delay*(retries-1)`, the monotonically increasing
schedule `attempt * baseDelay`, with no partial result. -/
theorem retry_policy_contract {ε α : Type} (retries delay : ℕ)
    (op : ℕ → Except ε α) :
    (3 ≤ retry_policy_default_retries ∧ retry_policy_default_retries ≤ 5)
    ∧ (∀ op' : ℕ → Except ε α, (∀ k, k < retries → op k = op' k) →
        retry_policy retries delay op = retry_policy retries delay op')
    ∧ (∀ (j : ℕ) (a : α), j < retries →
        (∀ k, k < j → ∃ e, op k = Except.error e) → op j = Except.ok a →
        retry_policy retries delay op
          = (some (Except.ok a), (List.range' 1 j).map (fun m => delay * m)))
    ∧ (∀ es : ℕ → ε, 0 < retries →
        (∀ k, k < retries → op k = Except.error (es k)) →
        retry_policy retries delay op
          = (some (Except.error (es (retries - 1))),
              (List.range' 1 (retries - 1)).map (fun m => delay * m))) := by
  refine ⟨⟨by norm_num [retry_policy_default_retries],
    by norm_num [retry_policy_default_retries]⟩, ?_, ?_, ?_⟩
  · intro op' h
    exact retryFromAux_congr retries delay op op' retries 0
      (fun k _ hk => h k hk)
  · intro j a hj hfail hok
    have h := retryFromAux_ok retries delay op a retries 0 j
      (Nat.zero_le _) hj (by omega) (fun k _ hk => hfail k hk) hok
    simpa [retry_policy] using h
  · intro es hr hfail
    have h := retryFromAux_allfail retries delay op es retries 0 hr
      (by omega) (fun k _ hk => hfail k hk)
    simpa [retry_policy] using h

/-- Witness for C9: success at the third attempt returns the value with
sleeps 60 and 120; three attempts all failing re-raise the last error
with sleeps 7 and 14. -/
theorem retry_policy_contract_witness :
    (retry_policy 5 60 (fun k => if k = 2 then Except.ok 42 else Except.error 9)
      : Option (Except ℕ ℕ) × List ℕ) = (some (Except.ok 42), [60, 120])
    ∧ (retry_policy 3 7 (fun _ => (Except.error 5 : Except ℕ ℕ)))
      = (some (Except.error 5), [7, 14]) := by
  constructor
  · rw [(retry_policy_contract 5 60 _).2.2.1 2 42 (by omega)
      (fun k hk => ⟨9, by simp [Nat.ne_of_lt hk]⟩) rfl]
    rfl
  · rw [(retry_policy_contract 3 7 _).2.2.2 (fun _ => 5) (by omega)
      (fun k _ => rfl)]
    rfl

end Gideon
